import Mathlib

/-!
# System monitor: embedding of `src/main.cpp`

The program samples `/proc`, computes per-process CPU and memory percentages
from two consecutive samples, sorts them and interprets one command line per
cycle.  This file embeds the pure part of every step:

* texts (file contents, command lines) are `List Char`;
* `unsigned long` values are `Nat` reduced modulo `2 ^ 64` where the source
  computes on them, `long` and `int` values are `Int` (a `long` product is
  reduced to its 64-bit two's-complement value);
* the library routines the source calls (`operator>>`, `std::getline`,
  `std::stoul`, `std::stol`, `std::stoi`, `std::sort`) are modelled after the
  C++ standard;
* `double` values are represented by the exact rational value of the
  expression that produces them;
* a C++ exception is an `Except.error`, a `std::map` is a key-sorted
  association list.
-/

namespace SysMon

/-! ## Characters and stream extraction -/

/-- Exceptions of the C++ standard library that the program can raise. -/
inductive Exn where
  | invalid_argument
  | out_of_range
deriving DecidableEq, Repr

deriving instance DecidableEq for Except

/-- The classification `isspace` of the C locale. -/
def isspace (c : Char) : Bool :=
  c == ' ' || c == '\t' || c == '\n' || c == '\x0b' || c == '\x0c' || c == '\r'

/-- The classification `isdigit`. -/
def isdigit (c : Char) : Bool :=
  decide (48 ≤ c.toNat) && decide (c.toNat ≤ 57)

/-- Value of a decimal digit. -/
def digitVal (c : Char) : Nat := c.toNat - 48

/-- Value of a string of decimal digits. -/
def natOfDigits (ds : List Char) : Nat :=
  ds.foldl (fun acc c => 10 * acc + digitVal c) 0

/-- Leading whitespace is discarded by every formatted extraction. -/
def skipws (s : List Char) : List Char := s.dropWhile isspace

/-- The extraction `stream >> word` for a `std::string`: skips whitespace and
reads up to the next whitespace; `none` when the end of the text is reached
first.  Returns the word and the rest of the stream. -/
def readWord (s : List Char) : Option (List Char × List Char) :=
  match skipws s with
  | [] => none
  | c :: cs =>
    some ((c :: cs).takeWhile (fun x => !isspace x), (c :: cs).dropWhile (fun x => !isspace x))

/-- Splits a text into its whitespace-separated words; `cur` is the word being
read. -/
def tokensAux : List Char → List Char → List (List Char)
  | [], cur => if cur = [] then [] else [cur]
  | c :: cs, cur =>
    if isspace c then
      (if cur = [] then tokensAux cs [] else cur :: tokensAux cs [])
    else tokensAux cs (cur ++ [c])

/-- The loop `while (s >> tmp) fields.push_back(tmp);` run from the start of
the text. -/
def tokens (s : List Char) : List (List Char) := tokensAux s []

/-- An optional sign in front of a number: whether it is `-`, and the text
after it. -/
def splitSign : List Char → Bool × List Char
  | '-' :: t => (true, t)
  | '+' :: t => (false, t)
  | t => (false, t)

/-- The sign and the magnitude that `strtol` and `strtoul` find at the start of
a text (after whitespace); `none` when there is no digit to convert. -/
def strtoNum (s : List Char) : Option (Bool × Nat) :=
  let body := splitSign (skipws s)
  let ds := body.2.takeWhile isdigit
  if ds = [] then none else some (body.1, natOfDigits ds)

/-- The conversion `std::stoul`. -/
def stoul (s : List Char) : Except Exn Nat :=
  match strtoNum s with
  | none => .error .invalid_argument
  | some (neg, v) =>
    if 2 ^ 64 ≤ v then .error .out_of_range
    else .ok (if neg then (2 ^ 64 - v) % 2 ^ 64 else v)

/-- The signed value of a sign and a magnitude. -/
def signedVal (neg : Bool) (v : Nat) : Int := if neg then -(v : Int) else (v : Int)

/-- The conversion `std::stol`. -/
def stol (s : List Char) : Except Exn Int :=
  match strtoNum s with
  | none => .error .invalid_argument
  | some (neg, v) =>
    if signedVal neg v < -(2 ^ 63) ∨ 2 ^ 63 ≤ signedVal neg v then .error .out_of_range
    else .ok (signedVal neg v)

/-- The conversion `std::stoi`. -/
def stoi (s : List Char) : Except Exn Int :=
  match strtoNum s with
  | none => .error .invalid_argument
  | some (neg, v) =>
    if signedVal neg v < -(2 ^ 31) ∨ 2 ^ 31 ≤ signedVal neg v then .error .out_of_range
    else .ok (signedVal neg v)

/-! ## Process records and the snapshot reader -/

/-- The record `ProcStat`. -/
structure ProcStat where
  pid : Int
  name : List Char
  utime : Nat
  stime : Nat
  rss_pages : Int
  cpu_percent : ℚ := 0
  mem_percent : ℚ := 0
deriving DecidableEq

/-- The member `total_time()`: the sum is computed in `unsigned long`. -/
def ProcStat.total_time (p : ProcStat) : Nat := (p.utime + p.stime) % 2 ^ 64

/-- What `std::getline(s, comm, ')')` leaves in `comm` after `s >> rest`: the
text between the first word and the first `)`.  When the first word cannot be
read, or runs to the end of the text, the stream is not good and `comm` stays
empty. -/
def raw_comm (content : List Char) : List Char :=
  match readWord content with
  | none => []
  | some (_, []) => []
  | some (_, r) => r.takeWhile (fun c => c != ')')

/-- The statement `if (!comm.empty() && comm.front() == ' ') comm = comm.substr(2);`.
`substr(2)` raises `std::out_of_range` on a string of length one. -/
def strip_comm (comm : List Char) : Except Exn (List Char) :=
  match comm with
  | ' ' :: t => if t = [] then .error .out_of_range else .ok (comm.drop 2)
  | _ => .ok comm

/-- The body of the loop of `read_proc_stats` for one process, given the
content of its stat file: the record stored in the map, `none` when no record
is stored, or the exception raised. -/
def parse_stat (pid : Int) (content : List Char) : Except Exn (Option ProcStat) :=
  match strip_comm (raw_comm content) with
  | .error e => .error e
  | .ok comm =>
    let fields := tokens content
    if 24 ≤ fields.length then
      match stoul (fields.getD 13 []) with
      | .error e => .error e
      | .ok ut =>
        match stoul (fields.getD 14 []) with
        | .error e => .error e
        | .ok st =>
          match stol (fields.getD 23 []) with
          | .error e => .error e
          | .ok rss =>
            .ok (some { pid := pid, name := comm, utime := ut, stime := st, rss_pages := rss })
    else .ok none

/-- The type `std::map<int, ProcStat>`: the entries in ascending key order. -/
abbrev ProcMap := List (Int × ProcStat)

/-- The assignment `procs[pid] = ps` on a map. -/
def ProcMap.assign : ProcMap → Int → ProcStat → ProcMap
  | [], k, v => [(k, v)]
  | (k0, v0) :: t, k, v =>
    if k < k0 then (k, v) :: (k0, v0) :: t
    else if k = k0 then (k, v) :: t
    else (k0, v0) :: ProcMap.assign t k v

/-- The lookup `prev_procs.find(pid)`. -/
def ProcMap.find (m : ProcMap) (pid : Int) : Option ProcStat := List.lookup pid m

/-- One entry of the directory `/proc` as the reader sees it: whether it is a
directory, its name, and the content of its `stat` file (`none` when the file
cannot be opened). -/
structure DirEntry where
  is_dir : Bool
  d_name : List Char
  stat : Option (List Char)

/-- The loop of `read_proc_stats` over the directory entries. -/
def read_proc_loop : List DirEntry → ProcMap → Except Exn ProcMap
  | [], procs => .ok procs
  | e :: es, procs =>
    if !e.is_dir then read_proc_loop es procs
    else if !e.d_name.all isdigit then read_proc_loop es procs
    else
      match stoi e.d_name with
      | .error x => .error x
      | .ok pid =>
        match e.stat with
        | none => read_proc_loop es procs
        | some content =>
          match parse_stat pid content with
          | .error x => .error x
          | .ok none => read_proc_loop es procs
          | .ok (some ps) => read_proc_loop es (ProcMap.assign procs pid ps)

/-- The function `read_proc_stats`; `none` stands for a `/proc` that cannot be
opened. -/
def read_proc_stats (dir : Option (List DirEntry)) : Except Exn ProcMap :=
  match dir with
  | none => .ok []
  | some es => read_proc_loop es []

/-! ## Memory information -/

/-- The extraction `stream >> val` for an `unsigned long`: `none` when the
stream fails (end of text, no digit, or a value that does not fit). -/
def readULong (s : List Char) : Option (Nat × List Char) :=
  let body := splitSign (skipws s)
  let ds := body.2.takeWhile isdigit
  if ds = [] then none
  else if 2 ^ 64 ≤ natOfDigits ds then none
  else some (if body.1 then (2 ^ 64 - natOfDigits ds) % 2 ^ 64 else natOfDigits ds,
             body.2.dropWhile isdigit)

/-- The loop `while (f >> key >> val >> unit) { if (key == wanted) ... }`:
the value that follows the first occurrence of `wanted` as a key, `dflt` when
the stream fails first.  `none` only when the iteration budget `fuel` is used
up. -/
def scan_meminfo (wanted : List Char) (dflt : Nat) : Nat → List Char → Option Nat
  | 0, _ => none
  | fuel + 1, s =>
    match readWord s with
    | none => some dflt
    | some (key, s1) =>
      match readULong s1 with
      | none => some dflt
      | some (val, s2) =>
        match readWord s2 with
        | none => some dflt
        | some (_, s3) =>
          if key = wanted then some val else scan_meminfo wanted dflt fuel s3

/-- The function `get_mem_total_kb` on the content of `/proc/meminfo`. -/
def get_mem_total_kb (meminfo : List Char) : Option Nat :=
  scan_meminfo "MemTotal:".toList 1 (meminfo.length + 1) meminfo

/-- The value of `mem_available` after the scan in `main`. -/
def read_mem_available (meminfo : List Char) : Option Nat :=
  scan_meminfo "MemAvailable:".toList 0 (meminfo.length + 1) meminfo

/-! ## Delta calculation and ranking -/

/-- Subtraction of two `unsigned long` values. -/
def usub (a b : Nat) : Nat := (((a : Int) - (b : Int)) % 2 ^ 64).toNat

/-- The `long` that holds an integer result: the value itself when it is in
range; outside the range, where the C++ arithmetic is undefined, the
two's-complement value that the machine instruction leaves. -/
def wrapLong (x : Int) : Int := (x + 2 ^ 63) % 2 ^ 64 - 2 ^ 63

/-- The divisor `total_cpu_delta` of one cycle. -/
def total_cpu_delta (prev_total_cpu cur_total_cpu : Nat) : Nat :=
  let d := usub cur_total_cpu prev_total_cpu
  if d = 0 then 1 else d

/-- The value `proc_delta` of a process present in both snapshots. -/
def proc_delta (prev cur : ProcStat) : Nat :=
  if cur.total_time > prev.total_time then cur.total_time - prev.total_time else 0

/-- The expression `100.0 * (cur.rss_pages * page_kb) / mem_total_kb`; the
product is a `long`. -/
def mem_percent (rss_pages page_kb : Int) (mem_total_kb : Nat) : ℚ :=
  100 * ((wrapLong (rss_pages * page_kb) : Int) : ℚ) / (mem_total_kb : ℚ)

/-- The body of the loop over `cur_procs`: the record pushed onto `list`. -/
def delta_entry (prev_procs : ProcMap) (delta : Nat) (mem_total_kb : Nat) (page_kb : Int)
    (kv : Int × ProcStat) : ProcStat :=
  let cpu : ℚ :=
    match ProcMap.find prev_procs kv.1 with
    | some prev => 100 * (proc_delta prev kv.2 : ℚ) / (delta : ℚ)
    | none => 0
  { kv.2 with cpu_percent := cpu, mem_percent := mem_percent kv.2.rss_pages page_kb mem_total_kb }

/-- The delta calculation of one cycle: the vector `list`. -/
def compute (prev_total_cpu cur_total_cpu : Nat) (prev_procs cur_procs : ProcMap)
    (mem_total_kb : Nat) (page_kb : Int) : List ProcStat :=
  cur_procs.map
    (delta_entry prev_procs (total_cpu_delta prev_total_cpu cur_total_cpu) mem_total_kb page_kb)

/-- What one pass through the command interpreter does. -/
inductive Outcome where
  | toggle_sort
  | quit
  | ignored
  | kill (pid : Int)
  | declined (pid : Int)
  | raised (e : Exn)
deriving DecidableEq, Repr

/-- The test `!r.empty() && (r[0] == 'y' || r[0] == 'Y')`. -/
def affirmative (r : List Char) : Bool :=
  match r with
  | [] => false
  | c :: _ => c == 'y' || c == 'Y'

/-- The prompt `Confirm kill <pid> ? (y/n):` answered by `r`: `kill` stands for
the call `kill(pid, SIGKILL)`. -/
def confirm (pid : Int) (r : List Char) : Outcome :=
  if affirmative r then .kill pid else .declined pid

/-- The value an `int` takes from a sign and a magnitude read by the stream:
results outside the range of `int` are clamped. -/
def clampInt (x : Int) : Int :=
  if x < -(2 ^ 31) then -(2 ^ 31) else if 2 ^ 31 ≤ x then 2 ^ 31 - 1 else x

/-- The extraction `iss >> pid` for an `int`: `none` when only whitespace is
left, in which case nothing is stored in `pid`; otherwise the value stored,
which is `0` when no digit can be read. -/
def readInt (s : List Char) : Option Int :=
  match skipws s with
  | [] => none
  | c :: cs =>
    let body := splitSign (c :: cs)
    let ds := body.2.takeWhile isdigit
    if ds = [] then some 0 else some (clampInt (signedVal body.1 (natOfDigits ds)))

/-- The statement `iss >> c >> pid` on a line that starts with `k`, `rest`
being the text after the `k`: the value of `pid` afterwards.  The variable is
declared without an initial value, so it keeps the value `stale` that its
storage holds when the extraction stores nothing. -/
def extract_pid (stale : Int) (rest : List Char) : Int :=
  match readInt rest with
  | none => stale
  | some v => v

/-- The command interpreter of `main` on the line `cmd`, with `r` the next
line of the input (read only when the prompt is shown) and `stale` the value
that the storage of the uninitialised `int pid` of the `k` branch holds. -/
def command (stale : Int) (cmd r : List Char) : Outcome :=
  if cmd = ['s'] then .toggle_sort
  else if cmd = ['q'] then .quit
  else
    match cmd with
    | 'k' :: rest =>
      if extract_pid stale rest > 0 then confirm (extract_pid stale rest) r else .ignored
    | _ =>
      if cmd ≠ [] ∧ cmd.all isdigit then
        match stoi cmd with
        | .error e => .raised e
        | .ok pid => confirm pid r
      else .ignored

/-! ## Predicates and inputs used in the statements -/

/-- The invariant of a snapshot built by `read_proc_stats`: the keys are in
strictly ascending order, as in every `std::map`, and each record carries the
pid it is stored under. -/
def ProcMap.WF (m : ProcMap) : Prop :=
  (m.map Prod.fst).Pairwise (fun a b => a < b) ∧ ∀ kv ∈ m, kv.2.pid = kv.1

/-- The previous snapshot of the scenario of C1. -/
def scenario_prev : ProcMap :=
  [(10, { pid := 10, name := [], utime := 100, stime := 50, rss_pages := 0 })]

/-- The current snapshot of the scenario of C1. -/
def scenario_cur : ProcMap :=
  [(10, { pid := 10, name := [], utime := 150, stime := 80, rss_pages := 0 })]

/-- A previous snapshot with one process that has used no tick. -/
def wrap_prev : ProcMap :=
  [(10, { pid := 10, name := [], utime := 0, stime := 0, rss_pages := 0 })]

/-- A current snapshot in which the sum of the user and system ticks of the
process is `2 ^ 64 + 1`. -/
def wrap_cur : ProcMap :=
  [(10, { pid := 10, name := [], utime := 18446744073709551615, stime := 2, rss_pages := 0 })]

/-- The text `t` starts with a decimal number: optional whitespace, an optional
sign (`neg` tells whether it is `-`), and the longest run of digits, which is
not empty and has the value `v`. -/
def NumberAt (t : List Char) (neg : Bool) (v : Nat) : Prop :=
  ∃ ws sg ds tl, t = ws ++ (sg ++ (ds ++ tl)) ∧ (∀ c ∈ ws, isspace c = true) ∧
    ((sg = [] ∧ neg = false) ∨ (sg = ['-'] ∧ neg = true) ∨ (sg = ['+'] ∧ neg = false)) ∧
    ds ≠ [] ∧ (∀ c ∈ ds, isdigit c = true) ∧ (∀ c, tl.head? = some c → isdigit c = false) ∧
    v = natOfDigits ds

/-- The `unsigned long` that `std::stoul` returns for a sign and a magnitude. -/
def ulongVal (neg : Bool) (v : Nat) : Nat := if neg then (2 ^ 64 - v) % 2 ^ 64 else v

/-- The record text has, after its first word, a single space that is followed
by `)` or by the end of the text. -/
def LoneSpaceName (content : List Char) : Prop :=
  ∃ ws w rest, content = ws ++ (w ++ ' ' :: rest) ∧ (∀ c ∈ ws, isspace c = true) ∧
    w ≠ [] ∧ (∀ c ∈ w, isspace c = false) ∧ (rest = [] ∨ rest.head? = some ')')

/-- The stat line of the scenario of C3: the name token is `(my (odd) proc)`. -/
def odd_name_line : List Char :=
  "7 (my (odd) proc) S 4 5 6 7 8 9 10 11 12 13 14 15 16 17 18 19 20 21 22 23 24".toList

/-- A stat line whose name `a b` contains one space; the documented field
`i` (for `i >= 4`) holds the number `i`. -/
def spaced_name_line : List Char :=
  "7 (a b) S 4 5 6 7 8 9 10 11 12 13 14 15 16 17 18 19 20 21 22 23 24 25".toList

/-- A memory-information text without the key `MemAvailable:`. -/
def meminfo_without_available : List Char := "MemTotal: 100 kB\nMemFree: 5 kB\n".toList

/-- A command line of the form `k <pid>`: the letter `k`, optional
whitespace, an optional `+`, and a decimal number (the longest run of digits),
possibly followed by more text; `pid` is the number, saturated at the largest
`int`. -/
def KillKForm (cmd : List Char) (pid : Int) : Prop :=
  ∃ ws sg ds tl, cmd = 'k' :: (ws ++ sg ++ ds ++ tl) ∧ (∀ c ∈ ws, isspace c = true) ∧
    (sg = [] ∨ sg = ['+']) ∧ ds ≠ [] ∧ (∀ c ∈ ds, isdigit c = true) ∧
    (∀ c, tl.head? = some c → isdigit c = false) ∧
    pid = clampInt (natOfDigits ds)

/-- A command line that is the letter `k` followed by whitespace only. -/
def KillNoPid (cmd : List Char) : Prop :=
  ∃ ws, cmd = 'k' :: ws ∧ ∀ c ∈ ws, isspace c = true

/-- A command line that is a bare `<pid>`: decimal digits only, `pid` their
value. -/
def KillBareForm (cmd : List Char) (pid : Int) : Prop :=
  cmd ≠ [] ∧ (∀ c ∈ cmd, isdigit c = true) ∧ pid = (natOfDigits cmd : Nat)

/-! ## Arithmetic of the machine types -/

theorem usub_of_le (a b : Nat) (ha : a < 2 ^ 64) (h : b ≤ a) : usub a b = a - b := by
  unfold usub
  omega

theorem usub_of_lt (a b : Nat) (hb : b < 2 ^ 64) (h : a < b) :
    usub a b = 2 ^ 64 - (b - a) := by
  unfold usub
  omega

theorem wrapLong_of_range (x : Int) (h1 : -(2 ^ 63) ≤ x) (h2 : x < 2 ^ 63) :
    wrapLong x = x := by
  unfold wrapLong
  omega

theorem total_cpu_delta_of_le (p c : Nat) (hc : c < 2 ^ 64) (h : p ≤ c) :
    total_cpu_delta p c = max 1 (c - p) := by
  unfold total_cpu_delta
  rw [usub_of_le c p hc h]
  by_cases h0 : c - p = 0
  · simp [h0]
  · simp only [h0, if_false]
    omega

/-! ## The std::map invariant -/

theorem assign_keys_mem (m : ProcMap) (k : Int) (v : ProcStat) :
    ∀ a ∈ (ProcMap.assign m k v).map Prod.fst, a = k ∨ a ∈ m.map Prod.fst := by
  induction m with
  | nil => intro a ha; simp [ProcMap.assign] at ha; exact Or.inl ha
  | cons hd t ih =>
    obtain ⟨k0, v0⟩ := hd
    intro a ha
    unfold ProcMap.assign at ha
    split_ifs at ha with h1 h2
    · simp only [List.map_cons, List.mem_cons] at ha ⊢
      tauto
    · simp only [List.map_cons, List.mem_cons] at ha ⊢
      tauto
    · simp only [List.map_cons, List.mem_cons] at ha ⊢
      rcases ha with ha | ha
      · tauto
      · rcases ih a ha with h | h
        · exact Or.inl h
        · exact Or.inr (Or.inr h)

theorem assign_wf (m : ProcMap) (k : Int) (v : ProcStat) (hv : v.pid = k) (hm : m.WF) :
    (ProcMap.assign m k v).WF := by
  induction m with
  | nil =>
    refine ⟨by simp [ProcMap.assign], ?_⟩
    intro kv hkv
    simp [ProcMap.assign] at hkv
    subst hkv
    exact hv
  | cons hd t ih =>
    obtain ⟨k0, v0⟩ := hd
    obtain ⟨hs, hp⟩ := hm
    have hs0 : ∀ a ∈ t.map Prod.fst, k0 < a := (List.pairwise_cons.1 hs).1
    have hst : (t.map Prod.fst).Pairwise (fun a b => a < b) := (List.pairwise_cons.1 hs).2
    have hpt : ∀ kv ∈ t, kv.2.pid = kv.1 := fun kv h => hp kv (List.mem_cons_of_mem _ h)
    have hp0 : v0.pid = k0 := hp (k0, v0) (List.mem_cons_self _ _)
    unfold ProcMap.assign
    split_ifs with h1 h2
    · refine ⟨?_, ?_⟩
      · simp only [List.map_cons]
        refine List.pairwise_cons.2 ⟨?_, hs⟩
        intro a ha
        simp only [List.map_cons, List.mem_cons] at ha
        rcases ha with ha | ha
        · omega
        · have := hs0 a ha
          omega
      · intro kv hkv
        simp only [List.mem_cons] at hkv
        rcases hkv with h | h | h
        · subst h; exact hv
        · subst h; exact hp0
        · exact hpt kv h
    · subst h2
      refine ⟨?_, ?_⟩
      · simp only [List.map_cons]
        exact List.pairwise_cons.2 ⟨hs0, hst⟩
      · intro kv hkv
        simp only [List.mem_cons] at hkv
        rcases hkv with h | h
        · subst h; exact hv
        · exact hpt kv h
    · obtain ⟨is, ip⟩ := ih ⟨hst, hpt⟩
      refine ⟨?_, ?_⟩
      · simp only [List.map_cons]
        refine List.pairwise_cons.2 ⟨?_, is⟩
        intro a ha
        rcases assign_keys_mem t k v a ha with h | h
        · omega
        · exact hs0 a h
      · intro kv hkv
        simp only [List.mem_cons] at hkv
        rcases hkv with h | h
        · subst h; exact hp0
        · exact ip kv h

theorem parse_stat_pid (pid : Int) (content : List Char) (ps : ProcStat)
    (h : parse_stat pid content = .ok (some ps)) : ps.pid = pid := by
  unfold parse_stat at h
  split at h
  · exact absurd h (by simp)
  · simp only at h
    split_ifs at h
    · split at h
      · exact absurd h (by simp)
      · split at h
        · exact absurd h (by simp)
        · split at h
          · exact absurd h (by simp)
          · simp only [Except.ok.injEq, Option.some.injEq] at h
            rw [← h]
    · simp at h

theorem read_proc_loop_wf (es : List DirEntry) :
    ∀ (procs m : ProcMap), procs.WF → read_proc_loop es procs = .ok m → m.WF := by
  induction es with
  | nil =>
    intro procs m hw h
    simp only [read_proc_loop, Except.ok.injEq] at h
    exact h ▸ hw
  | cons e es ih =>
    intro procs m hw h
    unfold read_proc_loop at h
    split_ifs at h with h1 h2
    · exact ih procs m hw h
    · exact ih procs m hw h
    · split at h
      · exact absurd h (by simp)
      · split at h
        · exact ih procs m hw h
        · split at h
          · exact absurd h (by simp)
          · exact ih procs m hw h
          · exact ih _ m (assign_wf procs _ _ (parse_stat_pid _ _ _ (by assumption)) hw) h

/-- Every snapshot that `read_proc_stats` returns satisfies the map invariant. -/
theorem read_proc_stats_wf (dir : Option (List DirEntry)) (m : ProcMap)
    (h : read_proc_stats dir = .ok m) : m.WF := by
  unfold read_proc_stats at h
  cases dir with
  | none =>
    simp only [Except.ok.injEq] at h
    subst h
    exact ⟨by simp, by simp⟩
  | some es => exact read_proc_loop_wf es [] m ⟨by simp, by simp⟩ h

/-! ## Sorting -/

theorem proc_delta_cast (prev cur : ProcStat) :
    ((proc_delta prev cur : Nat) : ℚ)
      = ((max 0 ((cur.total_time : Int) - (prev.total_time : Int)) : Int) : ℚ) := by
  have h : ((proc_delta prev cur : Nat) : Int)
      = max 0 ((cur.total_time : Int) - (prev.total_time : Int)) := by
    unfold proc_delta
    split_ifs with hlt
    · rw [max_eq_right (by omega)]
      omega
    · rw [max_eq_left (by omega)]
      simp
  rw [← h]
  simp

theorem find_of_mem (m : ProcMap) (k : Int) (v : ProcStat)
    (hnd : (m.map Prod.fst).Nodup) (h : (k, v) ∈ m) : ProcMap.find m k = some v := by
  induction m with
  | nil => simp at h
  | cons hd t ih =>
    obtain ⟨k0, v0⟩ := hd
    have hnd0 : k0 ∉ t.map Prod.fst := (List.nodup_cons.1 hnd).1
    have hndt : (t.map Prod.fst).Nodup := (List.nodup_cons.1 hnd).2
    rcases List.mem_cons.1 h with hhd | htl
    · have h1 : k = k0 := (Prod.mk.inj hhd).1
      have h2 : v = v0 := (Prod.mk.inj hhd).2
      subst h1; subst h2
      simp [ProcMap.find, List.lookup]
    · have hne : k ≠ k0 := by
        intro e
        exact hnd0 (List.mem_map.2 ⟨(k, v), htl, e⟩)
      have hb : (k == k0) = false := by simpa using hne
      have := ih hndt htl
      unfold ProcMap.find at this ⊢
      simp [List.lookup, hb, this]

theorem find_of_not_mem (m : ProcMap) (k : Int) (h : k ∉ m.map Prod.fst) :
    ProcMap.find m k = none := by
  induction m with
  | nil => rfl
  | cons hd t ih =>
    obtain ⟨k0, v0⟩ := hd
    have hne : k ≠ k0 := by
      intro e
      exact h (by simp [e])
    have ht : k ∉ t.map Prod.fst := by
      intro hm
      exact h (by simp only [List.map_cons, List.mem_cons]; exact Or.inr hm)
    have hb : (k == k0) = false := by simpa using hne
    have := ih ht
    unfold ProcMap.find at this ⊢
    simp [List.lookup, hb, this]

/-- C1 (as stated, refuted): for a process whose user and system ticks go from
`0 + 0` to `(2 ^ 64 - 1) + 2`, with the global counter going from 1000 to 1001,
the computed `cpu_percent` is `100`, not `100 * (2 ^ 64 + 1) / 1`: the sum of
the ticks is taken in `unsigned long`. -/
theorem compute_total_ticks_wrap_counterexample :
    (compute 1000 1001 wrap_prev wrap_cur 8000000 4).map ProcStat.cpu_percent = [100] ∧
    (100 : ℚ) ≠ 100 * ((max 0 (((18446744073709551615 : Int) + 2) - (0 + 0)) : Int) : ℚ)
        / ((max 1 (1001 - 1000) : Nat) : ℚ) := by
  constructor
  · have hfind : ProcMap.find wrap_prev 10
        = some { pid := 10, name := [], utime := 0, stime := 0, rss_pages := 0 } := by decide
    have hd : total_cpu_delta 1000 1001 = 1 := by decide
    have hp : proc_delta { pid := 10, name := [], utime := 0, stime := 0, rss_pages := 0 }
        { pid := 10, name := [], utime := 18446744073709551615, stime := 2, rss_pages := 0 }
        = 1 := by decide
    simp [compute, wrap_cur, delta_entry, hfind, hd, hp]
  · norm_num

/-- C1 (amended): with `cur_global >= prev_global`, the delta calculation
yields exactly one record for each pid of the current snapshot and none for any
other pid (a pid present only in the previous snapshot yields none); the record
of a pid that is also in the previous snapshot has
`cpu_percent = 100 * max(0, total_ticks(cur) - total_ticks(prev)) / global_delta`
with `total_ticks = (user_ticks + system_ticks) mod 2 ^ 64` and
`global_delta = max(1, cur_global - prev_global)`, and the record of a pid
absent from the previous snapshot has `cpu_percent = 0`. -/
theorem compute_one_record_per_pid (prev_total_cpu cur_total_cpu : Nat)
    (prev_procs cur_procs : ProcMap) (mem_total_kb : Nat) (page_kb : Int)
    (hle : prev_total_cpu ≤ cur_total_cpu) (hcur : cur_total_cpu < 2 ^ 64)
    (hprev : (prev_procs.map Prod.fst).Nodup) (hwf : cur_procs.WF) :
    (∀ pid : Int,
      ((compute prev_total_cpu cur_total_cpu prev_procs cur_procs mem_total_kb page_kb).map
          ProcStat.pid).count pid
        = if pid ∈ cur_procs.map Prod.fst then 1 else 0) ∧
    (∀ r ∈ compute prev_total_cpu cur_total_cpu prev_procs cur_procs mem_total_kb page_kb,
      ∃ cur : ProcStat, (r.pid, cur) ∈ cur_procs ∧
        (∀ prev : ProcStat, (r.pid, prev) ∈ prev_procs →
          r.cpu_percent
            = 100 * ((max 0 ((((cur.utime + cur.stime) % 2 ^ 64 : Nat) : Int)
                        - (((prev.utime + prev.stime) % 2 ^ 64 : Nat) : Int)) : Int) : ℚ)
                / ((max 1 (cur_total_cpu - prev_total_cpu) : Nat) : ℚ)) ∧
        (r.pid ∉ prev_procs.map Prod.fst → r.cpu_percent = 0)) := by
  obtain ⟨hsorted, hpid⟩ := hwf
  have hkeys : (compute prev_total_cpu cur_total_cpu prev_procs cur_procs mem_total_kb page_kb).map
      ProcStat.pid = cur_procs.map Prod.fst := by
    unfold compute
    rw [List.map_map]
    apply List.map_congr_left
    intro kv hkv
    simpa [delta_entry] using hpid kv hkv
  have hnodup : (cur_procs.map Prod.fst).Nodup :=
    hsorted.imp (fun h => ne_of_lt h)
  refine ⟨?_, ?_⟩
  · intro pid
    rw [hkeys]
    split_ifs with hmem
    · exact List.count_eq_one_of_mem hnodup hmem
    · exact List.count_eq_zero_of_not_mem hmem
  · intro r hr
    unfold compute at hr
    obtain ⟨kv, hkv, rfl⟩ := List.mem_map.1 hr
    have hk : (delta_entry prev_procs (total_cpu_delta prev_total_cpu cur_total_cpu)
        mem_total_kb page_kb kv).pid = kv.1 := by
      simpa [delta_entry] using hpid kv hkv
    refine ⟨kv.2, ?_, ?_, ?_⟩
    · rw [hk]; exact hkv
    · intro prev hprevmem
      rw [hk] at hprevmem
      have hfind := find_of_mem prev_procs kv.1 prev hprev hprevmem
      have hcast := proc_delta_cast prev kv.2
      unfold ProcStat.total_time at hcast
      rw [← total_cpu_delta_of_le prev_total_cpu cur_total_cpu hcur hle, ← hcast]
      simp [delta_entry, hfind]
    · intro hnone
      rw [hk] at hnone
      have hfind := find_of_not_mem prev_procs kv.1 hnone
      simp [delta_entry, hfind]

theorem compute_one_record_per_pid_witness :
    ((compute 1000 1100 scenario_prev scenario_cur 8000000 4).map ProcStat.pid).count 10 = 1 ∧
    ∀ r ∈ compute 1000 1100 scenario_prev scenario_cur 8000000 4, r.cpu_percent = 80 := by
  have hwf : scenario_cur.WF := by
    unfold ProcMap.WF scenario_cur
    constructor <;> decide
  have h := compute_one_record_per_pid 1000 1100 scenario_prev scenario_cur 8000000 4
    (by decide) (by decide) (by decide) hwf
  refine ⟨by simpa [scenario_cur] using h.1 10, ?_⟩
  intro r hr
  obtain ⟨cur, hcur, hprev, _⟩ := h.2 r hr
  have hrp : r.pid = 10 := by
    simp [scenario_cur] at hcur
    exact hcur.1
  have hc : cur = { pid := 10, name := [], utime := 150, stime := 80, rss_pages := 0 } := by
    simp [scenario_cur] at hcur
    exact hcur.2
  have hp := hprev { pid := 10, name := [], utime := 100, stime := 50, rss_pages := 0 }
    (by rw [hrp]; decide)
  rw [hp, hc]
  norm_num

/-- C2 (as stated, refuted): with `prev_global = 5` and `cur_global = 3` the
divisor is `2 ^ 64 - 2`, not `max(1, 3 - 5) = 1`. -/
theorem total_cpu_delta_backward_counterexample :
    total_cpu_delta 5 3 = 18446744073709551614 ∧
    (total_cpu_delta 5 3 : Int) ≠ max 1 ((3 : Int) - 5) := by
  constructor <;> decide

/-- C2 (amended): for `unsigned long` counters the divisor `global_delta` is
never zero; it equals `max(1, cur_global - prev_global)` when the counter did
not move backward (so it is `1` when both are equal), and it is the wrapped
difference `2 ^ 64 - (prev_global - cur_global)` when it did. -/
theorem total_cpu_delta_spec (prev_global cur_global : Nat)
    (hp : prev_global < 2 ^ 64) (hc : cur_global < 2 ^ 64) :
    1 ≤ total_cpu_delta prev_global cur_global ∧
    (prev_global ≤ cur_global →
      total_cpu_delta prev_global cur_global = max 1 (cur_global - prev_global)) ∧
    (cur_global = prev_global → total_cpu_delta prev_global cur_global = 1) ∧
    (cur_global < prev_global →
      total_cpu_delta prev_global cur_global = 2 ^ 64 - (prev_global - cur_global)) := by
  have h1 : 1 ≤ total_cpu_delta prev_global cur_global := by
    unfold total_cpu_delta
    simp only
    split_ifs with h0
    · exact le_refl 1
    · omega
  refine ⟨h1, total_cpu_delta_of_le prev_global cur_global hc, ?_, ?_⟩
  · intro heq
    rw [total_cpu_delta_of_le prev_global cur_global hc (le_of_eq heq.symm), heq]
    simp
  · intro hlt
    unfold total_cpu_delta
    rw [usub_of_lt cur_global prev_global hp hlt]
    simp only
    split_ifs with h0
    · omega
    · rfl

theorem total_cpu_delta_spec_witness :
    1 ≤ total_cpu_delta 1000 1100 ∧
    (1000 ≤ 1100 → total_cpu_delta 1000 1100 = max 1 (1100 - 1000)) ∧
    (1100 = 1000 → total_cpu_delta 1000 1100 = 1) ∧
    (1100 < 1000 → total_cpu_delta 1000 1100 = 2 ^ 64 - (1000 - 1100)) :=
  total_cpu_delta_spec 1000 1100 (by decide) (by decide)

/-- C6 (as stated, refuted): for `resident_pages = 2 ^ 60` and
`page_size_kb = 4` the product for the doubled page count does not fit a
`long`, and the percentage computed for it is not twice the percentage computed
for `2 ^ 60` pages. -/
theorem mem_percent_doubling_counterexample :
    mem_percent (2 * 2 ^ 60) 4 1 ≠ 2 * mem_percent (2 ^ 60) 4 1 := by
  norm_num [mem_percent, wrapLong]

/-- C6 (amended): for `resident_pages >= 0`, `page_size_kb > 0` and
`mem_capacity_kb > 0` such that the product for the doubled page count fits a
`long` (`2 * resident_pages * page_size_kb < 2 ^ 63`),
`mem_percent = 100 * (resident_pages * page_size_kb) / mem_capacity_kb`, and the
value for `2 * resident_pages` is exactly twice the value for
`resident_pages`. -/
theorem mem_percent_linear (resident_pages page_size_kb : Int) (mem_capacity_kb : Nat)
    (hr : 0 ≤ resident_pages) (hp : 0 < page_size_kb) (_hm : 0 < mem_capacity_kb)
    (hfit : 2 * resident_pages * page_size_kb < 2 ^ 63) :
    mem_percent resident_pages page_size_kb mem_capacity_kb
      = 100 * ((resident_pages * page_size_kb : Int) : ℚ) / (mem_capacity_kb : ℚ) ∧
    mem_percent (2 * resident_pages) page_size_kb mem_capacity_kb
      = 2 * mem_percent resident_pages page_size_kb mem_capacity_kb := by
  have hnn : 0 ≤ resident_pages * page_size_kb := mul_nonneg hr (le_of_lt hp)
  have h2 : 2 * resident_pages * page_size_kb = 2 * (resident_pages * page_size_kb) := by ring
  have hw1 : wrapLong (resident_pages * page_size_kb) = resident_pages * page_size_kb :=
    wrapLong_of_range _ (by omega) (by omega)
  have hw2 : wrapLong (2 * resident_pages * page_size_kb) = 2 * resident_pages * page_size_kb :=
    wrapLong_of_range _ (by omega) (by omega)
  unfold mem_percent
  rw [hw1, hw2]
  refine ⟨rfl, ?_⟩
  push_cast
  ring

theorem mem_percent_linear_witness :
    mem_percent 1000 4 8000000 = 100 * (((1000 : Int) * 4 : Int) : ℚ) / ((8000000 : Nat) : ℚ) ∧
    mem_percent (2 * 1000) 4 8000000 = 2 * mem_percent 1000 4 8000000 :=
  mem_percent_linear 1000 4 8000000 (by decide) (by decide) (by decide) (by decide)

theorem isdigit_not_space (c : Char) (h : isdigit c = true) : isspace c = false := by
  cases hs : isspace c with
  | false => rfl
  | true =>
    exfalso
    simp only [isspace, Bool.or_eq_true, beq_iff_eq] at hs
    rcases hs with ((((rfl | rfl) | rfl) | rfl) | rfl) | rfl <;> revert h <;> decide

theorem isdigit_not_sign (c : Char) (h : isdigit c = true) : c ≠ '-' ∧ c ≠ '+' := by
  constructor <;> rintro rfl <;> revert h <;> decide

theorem dropWhile_head_false (p : Char → Bool) (l : List Char) (c : Char) (cs : List Char)
    (h : l.dropWhile p = c :: cs) : p c = false := by
  induction l with
  | nil => simp at h
  | cons a t ih =>
    by_cases ha : p a = true
    · rw [List.dropWhile_cons_of_pos ha] at h
      exact ih h
    · rw [List.dropWhile_cons_of_neg ha] at h
      have := (List.cons.inj h).1
      subst this
      simpa using ha

theorem dropWhile_append_all (p : Char → Bool) (pre s : List Char)
    (h : ∀ c ∈ pre, p c = true) : (pre ++ s).dropWhile p = s.dropWhile p := by
  induction pre with
  | nil => rfl
  | cons a t ih =>
    have ha : p a = true := h a (List.mem_cons_self _ _)
    rw [List.cons_append, List.dropWhile_cons_of_pos ha]
    exact ih (fun c hc => h c (List.mem_cons_of_mem _ hc))

theorem splitSign_shape (s : List Char) :
    ∃ sg, s = sg ++ (splitSign s).2 ∧
      ((sg = [] ∧ (splitSign s).1 = false) ∨ (sg = ['-'] ∧ (splitSign s).1 = true) ∨
        (sg = ['+'] ∧ (splitSign s).1 = false)) := by
  unfold splitSign
  split
  · exact ⟨['-'], rfl, Or.inr (Or.inl ⟨rfl, rfl⟩)⟩
  · exact ⟨['+'], rfl, Or.inr (Or.inr ⟨rfl, rfl⟩)⟩
  · exact ⟨[], rfl, Or.inl ⟨rfl, rfl⟩⟩

theorem dropWhile_of_head (p : Char → Bool) (l : List Char)
    (h : ∀ c, l.head? = some c → p c = false) : l.dropWhile p = l := by
  cases l with
  | nil => rfl
  | cons a t =>
    have ha : p a = false := h a rfl
    simp [List.dropWhile, ha]

theorem takeWhile_append_stop (p : Char → Bool) (ds tl : List Char)
    (hds : ∀ c ∈ ds, p c = true) (htl : ∀ c, tl.head? = some c → p c = false) :
    (ds ++ tl).takeWhile p = ds ∧ (ds ++ tl).dropWhile p = tl := by
  induction ds with
  | nil =>
    cases tl with
    | nil => exact ⟨rfl, rfl⟩
    | cons a t =>
      have ha : p a = false := htl a rfl
      simp [List.takeWhile, List.dropWhile, ha]
  | cons d ds ih =>
    have hd : p d = true := hds d (List.mem_cons_self _ _)
    obtain ⟨h1, h2⟩ := ih (fun c hc => hds c (List.mem_cons_of_mem _ hc))
    simp [List.takeWhile, List.dropWhile, hd, h1, h2]

theorem readWord_shape (s w r : List Char) (h : readWord s = some (w, r)) :
    s = s.takeWhile isspace ++ (w ++ r) ∧ w ≠ [] ∧ (∀ c ∈ w, isspace c = false) ∧
      (∀ c, r.head? = some c → isspace c = true) := by
  unfold readWord at h
  split at h
  · exact absurd h (by simp)
  · rename_i c cs hsk
    have hc : isspace c = false := dropWhile_head_false isspace s c cs hsk
    simp only [Option.some.injEq, Prod.mk.injEq] at h
    obtain ⟨hw, hr⟩ := h
    refine ⟨?_, ?_, ?_, ?_⟩
    · rw [← hw, ← hr, List.takeWhile_append_dropWhile]
      unfold skipws at hsk
      rw [← hsk, List.takeWhile_append_dropWhile]
    · rw [← hw]
      simp [List.takeWhile, hc]
    · intro x hx
      rw [← hw] at hx
      have := List.mem_takeWhile_imp hx
      simpa using this
    · intro x hx
      rw [← hr] at hx
      cases hdw : (c :: cs).dropWhile (fun x => !isspace x) with
      | nil => rw [hdw] at hx; simp at hx
      | cons a t =>
        rw [hdw] at hx
        have hxa : a = x := by simpa using hx
        have := dropWhile_head_false _ _ a t hdw
        rw [← hxa]
        simpa using this

theorem readWord_of_shape (ws w r : List Char) (hws : ∀ c ∈ ws, isspace c = true)
    (hw : w ≠ []) (hwn : ∀ c ∈ w, isspace c = false)
    (hr : ∀ c, r.head? = some c → isspace c = true) :
    readWord (ws ++ (w ++ r)) = some (w, r) := by
  cases w with
  | nil => exact absurd rfl hw
  | cons a t =>
    have ha : isspace a = false := hwn a (List.mem_cons_self _ _)
    have hsk : skipws (ws ++ (a :: t ++ r)) = a :: (t ++ r) := by
      unfold skipws
      rw [dropWhile_append_all isspace ws _ hws]
      simp [List.dropWhile, ha]
    have hsplit := takeWhile_append_stop (fun x => !isspace x) (a :: t) r
      (fun c hc => by simp [hwn c hc]) (fun c hc => by simp [hr c hc])
    unfold readWord
    rw [hsk]
    simp only [List.cons_append] at hsplit
    simp only [hsplit.1, hsplit.2]

/-! ## The claims on the per-process record parser -/

theorem strtoNum_of_numberAt (t : List Char) (neg : Bool) (v : Nat) (h : NumberAt t neg v) :
    strtoNum t = some (neg, v) := by
  obtain ⟨ws, sg, ds, tl, ht, hws, hsg, hne, hds, htl, hv⟩ := h
  cases ds with
  | nil => exact absurd rfl hne
  | cons d ds0 =>
    have hd : isdigit d = true := hds d (List.mem_cons_self _ _)
    obtain ⟨hdm, hdp⟩ := isdigit_not_sign d hd
    have hsplit := takeWhile_append_stop isdigit (d :: ds0) tl hds htl
    have htw : (d :: ds0 ++ tl).takeWhile isdigit ≠ [] := by rw [hsplit.1]; simp
    have hsk : skipws t = sg ++ (d :: ds0 ++ tl) := by
      rw [ht]
      unfold skipws
      rw [dropWhile_append_all isspace ws _ hws]
      apply dropWhile_of_head
      intro c hc
      rcases hsg with ⟨h0, _⟩ | ⟨h0, _⟩ | ⟨h0, _⟩
      · rw [h0] at hc
        have : d = c := by simpa using hc
        rw [← this]
        exact isdigit_not_space d hd
      · rw [h0] at hc
        have : '-' = c := by simpa using hc
        rw [← this]; decide
      · rw [h0] at hc
        have : '+' = c := by simpa using hc
        rw [← this]; decide
    have hss : splitSign (sg ++ (d :: ds0 ++ tl)) = (neg, d :: ds0 ++ tl) := by
      rcases hsg with ⟨h0, h1⟩ | ⟨h0, h1⟩ | ⟨h0, h1⟩
      · rw [h0, h1]
        simp only [List.nil_append, List.cons_append]
        unfold splitSign
        split
        · rename_i heq
          exact absurd (List.cons.inj heq).1 hdm
        · rename_i heq
          exact absurd (List.cons.inj heq).1 hdp
        · rfl
      · rw [h0, h1]; rfl
      · rw [h0, h1]; rfl
    unfold strtoNum
    simp only [hsk, hss]
    rw [if_neg htw, hsplit.1, hv]

theorem numberAt_of_strtoNum (t : List Char) (neg : Bool) (v : Nat)
    (h : strtoNum t = some (neg, v)) : NumberAt t neg v := by
  unfold strtoNum at h
  simp only at h
  have hne : (splitSign (skipws t)).2.takeWhile isdigit ≠ [] := by
    intro h0
    rw [if_pos h0] at h
    exact absurd h (by simp)
  rw [if_neg hne] at h
  have hneg : (splitSign (skipws t)).1 = neg := (Prod.mk.inj (Option.some.inj h)).1
  have hval : natOfDigits ((splitSign (skipws t)).2.takeWhile isdigit) = v :=
    (Prod.mk.inj (Option.some.inj h)).2
  obtain ⟨sg, hsg, hcase⟩ := splitSign_shape (skipws t)
  refine ⟨t.takeWhile isspace, sg, (splitSign (skipws t)).2.takeWhile isdigit,
    (splitSign (skipws t)).2.dropWhile isdigit, ?_, ?_, ?_, hne, ?_, ?_, hval.symm⟩
  · rw [List.takeWhile_append_dropWhile, ← hsg]
    unfold skipws
    rw [List.takeWhile_append_dropWhile]
  · intro c hc
    exact List.mem_takeWhile_imp hc
  · rw [← hneg]
    exact hcase
  · intro c hc
    exact List.mem_takeWhile_imp hc
  · intro c hc
    cases hdw : (splitSign (skipws t)).2.dropWhile isdigit with
    | nil => rw [hdw] at hc; simp at hc
    | cons a tl =>
      rw [hdw] at hc
      have hca : a = c := by simpa using hc
      rw [← hca]
      exact dropWhile_head_false _ _ a tl hdw

theorem stoul_of_numberAt (t : List Char) (neg : Bool) (v : Nat) (h : NumberAt t neg v)
    (hv : v < 2 ^ 64) : stoul t = .ok (ulongVal neg v) := by
  have hlt : ¬ 2 ^ 64 ≤ v := by omega
  unfold stoul
  rw [strtoNum_of_numberAt t neg v h]
  simp only
  rw [if_neg hlt]
  rfl

theorem stol_of_numberAt (t : List Char) (neg : Bool) (v : Nat) (h : NumberAt t neg v)
    (h1 : -(2 ^ 63) ≤ signedVal neg v) (h2 : signedVal neg v < 2 ^ 63) :
    stol t = .ok (signedVal neg v) := by
  have hr : ¬ (signedVal neg v < -(2 ^ 63) ∨ 2 ^ 63 ≤ signedVal neg v) := by omega
  unfold stol
  rw [strtoNum_of_numberAt t neg v h]
  simp only
  rw [if_neg hr]

theorem numberAt_of_stoul (t : List Char) (x : Nat) (h : stoul t = .ok x) :
    ∃ neg v, NumberAt t neg v ∧ v < 2 ^ 64 := by
  unfold stoul at h
  split at h
  · exact absurd h (by simp)
  · rename_i neg v hs
    by_cases hlt : 2 ^ 64 ≤ v
    · rw [if_pos hlt] at h
      exact absurd h (by simp)
    · exact ⟨neg, v, numberAt_of_strtoNum t neg v hs, by omega⟩

theorem numberAt_of_stol (t : List Char) (x : Int) (h : stol t = .ok x) :
    ∃ neg v, NumberAt t neg v ∧ -(2 ^ 63) ≤ signedVal neg v ∧ signedVal neg v < 2 ^ 63 := by
  unfold stol at h
  split at h
  · exact absurd h (by simp)
  · rename_i neg v hs
    by_cases hlt : signedVal neg v < -(2 ^ 63) ∨ 2 ^ 63 ≤ signedVal neg v
    · rw [if_pos hlt] at h
      exact absurd h (by simp)
    · exact ⟨neg, v, numberAt_of_strtoNum t neg v hs, by omega, by omega⟩

theorem loneSpace_of_raw_comm (content : List Char) (h : raw_comm content = [' ']) :
    LoneSpaceName content := by
  unfold raw_comm at h
  split at h
  · exact absurd h (by simp)
  · exact absurd h (by simp)
  · rename_i w r hr hread
    obtain ⟨hshape, hw, hwn, _⟩ := readWord_shape content w r hread
    cases r with
    | nil => exact absurd rfl hr
    | cons c cs =>
      by_cases hc : (c != ')') = true
      · have hstep : (c :: cs).takeWhile (fun c => c != ')')
            = c :: cs.takeWhile (fun c => c != ')') := by simp [List.takeWhile, hc]
        rw [hstep] at h
        have hc1 : c = ' ' := (List.cons.inj h).1
        have hcs : cs.takeWhile (fun c => c != ')') = [] := (List.cons.inj h).2
        refine ⟨content.takeWhile isspace, w, cs, ?_, ?_, hw, hwn, ?_⟩
        · rw [← hc1]; exact hshape
        · intro x hx
          exact List.mem_takeWhile_imp hx
        · cases cs with
          | nil => exact Or.inl rfl
          | cons a t =>
            right
            by_cases ha : (a != ')') = true
            · have hstep2 : (a :: t).takeWhile (fun c => c != ')')
                  = a :: t.takeWhile (fun c => c != ')') := by simp [List.takeWhile, ha]
              rw [hstep2] at hcs
              exact absurd hcs (by simp)
            · have : a = ')' := by simpa using ha
              rw [this]; rfl
      · have hstep : (c :: cs).takeWhile (fun c => c != ')') = [] := by
          simp [List.takeWhile, hc]
        rw [hstep] at h
        exact absurd h (by simp)

theorem raw_comm_of_loneSpace (content : List Char) (h : LoneSpaceName content) :
    raw_comm content = [' '] := by
  obtain ⟨ws, w, rest, hc, hws, hw, hwn, hrest⟩ := h
  have hread : readWord content = some (w, ' ' :: rest) := by
    rw [hc]
    apply readWord_of_shape ws w (' ' :: rest) hws hw hwn
    intro c hc
    have : ' ' = c := by simpa using hc
    rw [← this]; decide
  unfold raw_comm
  rw [hread]
  simp only
  have hsp : ((' ' : Char) != ')') = true := by decide
  rcases hrest with h0 | h0
  · rw [h0]; rfl
  · cases rest with
    | nil => simp at h0
    | cons a t =>
      have : a = ')' := by simpa using h0
      rw [this]
      simp [List.takeWhile, hsp]

theorem strip_comm_ok (comm : List Char) (h : comm ≠ [' ']) :
    ∃ name, strip_comm comm = .ok name := by
  unfold strip_comm
  split
  · rename_i t
    by_cases ht : t = []
    · subst ht; exact absurd rfl h
    · exact ⟨(' ' :: t).drop 2, by simp [ht]⟩
  · exact ⟨_, rfl⟩

theorem strip_comm_lone (e : Exn) (comm : List Char) (h : strip_comm comm = .error e) :
    comm = [' '] := by
  unfold strip_comm at h
  split at h
  · rename_i t
    by_cases ht : t = []
    · rw [ht]
    · rw [if_neg ht] at h
      exact absurd h (by simp)
  · exact absurd h (by simp)

/-- C3 (code at the failing input): for the name token `(my (odd) proc)` the
stored name is `my (odd`, the text up to the first `)`, not `my (odd) proc`. -/
theorem parse_stat_name_cut_at_first_paren :
    (parse_stat 7 odd_name_line).map (Option.map ProcStat.name)
      = .ok (some "my (odd".toList) ∧
    (parse_stat 7 odd_name_line).map (Option.map ProcStat.name)
      ≠ .ok (some "my (odd) proc".toList) := by
  constructor <;> decide

/-- C4 (code at the failing input): with the name `a b` the record holds the
documented fields 13, 14 and 23 as user ticks, system ticks and resident pages,
not the fields 14, 15 and 24. -/
theorem parse_stat_fields_shift_with_space :
    parse_stat 7 spaced_name_line
      = .ok (some { pid := 7, name := "a b".toList, utime := 13, stime := 14, rss_pages := 23 }) ∧
    parse_stat 7 spaced_name_line
      ≠ .ok (some { pid := 7, name := "a b".toList, utime := 14, stime := 15, rss_pages := 24 }) := by
  constructor <;> decide

theorem parse_stat_stored (pid : Int) (content name : List Char) (ut st : Nat) (rss : Int)
    (hn : strip_comm (raw_comm content) = .ok name) (hlen : 24 ≤ (tokens content).length)
    (h13 : stoul ((tokens content).getD 13 []) = .ok ut)
    (h14 : stoul ((tokens content).getD 14 []) = .ok st)
    (h23 : stol ((tokens content).getD 23 []) = .ok rss) :
    parse_stat pid content
      = .ok (some { pid := pid, name := name, utime := ut, stime := st, rss_pages := rss }) := by
  unfold parse_stat
  rw [hn]
  simp only [hlen, if_true]
  rw [h13, h14, h23]

theorem parse_stat_short (pid : Int) (content name : List Char)
    (hn : strip_comm (raw_comm content) = .ok name) (hlen : (tokens content).length < 24) :
    parse_stat pid content = .ok none := by
  have hlen2 : ¬ 24 ≤ (tokens content).length := by omega
  unfold parse_stat
  rw [hn]
  simp only [hlen2, if_false]

/-- The parser raises exactly on the record texts with a lone space after the
first word and on those with at least 24 fields of which the fields 14, 15 and
24 do not all start with a decimal number in range. -/
theorem parse_stat_raises_iff (pid : Int) (content : List Char) :
    (∃ e, parse_stat pid content = .error e) ↔
      (LoneSpaceName content ∨
        (24 ≤ (tokens content).length ∧
          ¬ ∃ n14 v14 n15 v15 n24 v24,
            NumberAt ((tokens content).getD 13 []) n14 v14 ∧ v14 < 2 ^ 64 ∧
            NumberAt ((tokens content).getD 14 []) n15 v15 ∧ v15 < 2 ^ 64 ∧
            NumberAt ((tokens content).getD 23 []) n24 v24 ∧
            -(2 ^ 63) ≤ signedVal n24 v24 ∧ signedVal n24 v24 < 2 ^ 63)) := by
  constructor
  · rintro ⟨e, he⟩
    by_cases hl : LoneSpaceName content
    · exact Or.inl hl
    · right
      have hraw : raw_comm content ≠ [' '] := fun h => hl (loneSpace_of_raw_comm content h)
      obtain ⟨name, hn⟩ := strip_comm_ok (raw_comm content) hraw
      by_cases hlen : 24 ≤ (tokens content).length
      · refine ⟨hlen, ?_⟩
        rintro ⟨n14, v14, n15, v15, n24, v24, a1, a2, b1, b2, c1, c2, c3⟩
        have hps := parse_stat_stored pid content name _ _ _ hn hlen
          (stoul_of_numberAt _ _ _ a1 a2) (stoul_of_numberAt _ _ _ b1 b2)
          (stol_of_numberAt _ _ _ c1 c2 c3)
        rw [hps] at he
        exact absurd he (by simp)
      · have := parse_stat_short pid content name hn (by omega)
        rw [this] at he
        exact absurd he (by simp)
  · rintro (hl | ⟨hlen, hno⟩)
    · refine ⟨.out_of_range, ?_⟩
      unfold parse_stat
      rw [raw_comm_of_loneSpace content hl]
      rfl
    · by_cases hl : LoneSpaceName content
      · refine ⟨.out_of_range, ?_⟩
        unfold parse_stat
        rw [raw_comm_of_loneSpace content hl]
        rfl
      · have hraw : raw_comm content ≠ [' '] := fun h => hl (loneSpace_of_raw_comm content h)
        obtain ⟨name, hn⟩ := strip_comm_ok (raw_comm content) hraw
        cases h13 : stoul ((tokens content).getD 13 []) with
        | error e =>
          refine ⟨e, ?_⟩
          unfold parse_stat
          rw [hn]
          simp only [hlen, if_true, h13]
        | ok x13 =>
          cases h14 : stoul ((tokens content).getD 14 []) with
          | error e =>
            refine ⟨e, ?_⟩
            unfold parse_stat
            rw [hn]
            simp only [hlen, if_true, h13, h14]
          | ok x14 =>
            cases h23 : stol ((tokens content).getD 23 []) with
            | error e =>
              refine ⟨e, ?_⟩
              unfold parse_stat
              rw [hn]
              simp only [hlen, if_true, h13, h14, h23]
            | ok x23 =>
              exfalso
              obtain ⟨n14, v14, a1, a2⟩ := numberAt_of_stoul _ _ h13
              obtain ⟨n15, v15, b1, b2⟩ := numberAt_of_stoul _ _ h14
              obtain ⟨n24, v24, c1, c2, c3⟩ := numberAt_of_stol _ _ h23
              exact hno ⟨n14, v14, n15, v15, n24, v24, a1, a2, b1, b2, c1, c2, c3⟩

/-! ## The memory-information scan -/

theorem tokensAux_skip (s : List Char) :
    tokensAux s [] = tokensAux (s.dropWhile isspace) [] := by
  induction s with
  | nil => rfl
  | cons c cs ih =>
    by_cases hc : isspace c = true
    · rw [List.dropWhile_cons_of_pos hc, ← ih]
      simp [tokensAux, hc]
    · rw [List.dropWhile_cons_of_neg hc]

theorem tokensAux_run (s : List Char) :
    ∀ cur : List Char,
      tokensAux s cur
        = if cur ++ s.takeWhile (fun x => !isspace x) = [] then
            tokensAux (s.dropWhile (fun x => !isspace x)) []
          else (cur ++ s.takeWhile (fun x => !isspace x))
            :: tokensAux (s.dropWhile (fun x => !isspace x)) [] := by
  induction s with
  | nil =>
    intro cur
    by_cases hc : cur = [] <;> simp [tokensAux, hc]
  | cons c cs ih =>
    intro cur
    by_cases hc : isspace c = true
    · have h1 : (c :: cs).takeWhile (fun x => !isspace x) = [] := by simp [List.takeWhile, hc]
      have h2 : (c :: cs).dropWhile (fun x => !isspace x) = c :: cs := by
        simp [List.dropWhile, hc]
      rw [h1, h2, List.append_nil]
      by_cases hcur : cur = [] <;> simp [tokensAux, hc, hcur]
    · have hc2 : isspace c = false := by simpa using hc
      have h1 : (c :: cs).takeWhile (fun x => !isspace x)
          = c :: cs.takeWhile (fun x => !isspace x) := by simp [List.takeWhile, hc2]
      have h2 : (c :: cs).dropWhile (fun x => !isspace x)
          = cs.dropWhile (fun x => !isspace x) := by simp [List.dropWhile, hc2]
      rw [h1, h2]
      have hstep : tokensAux (c :: cs) cur = tokensAux cs (cur ++ [c]) := by
        simp [tokensAux, hc2]
      rw [hstep, ih (cur ++ [c])]
      simp

theorem readWord_tokens (s w r : List Char) (h : readWord s = some (w, r)) :
    tokens s = w :: tokens r := by
  unfold readWord at h
  split at h
  · exact absurd h (by simp)
  · rename_i c cs hsk
    have hc : isspace c = false := dropWhile_head_false isspace s c cs hsk
    simp only [Option.some.injEq, Prod.mk.injEq] at h
    obtain ⟨hw, hr⟩ := h
    unfold tokens
    rw [tokensAux_skip s]
    unfold skipws at hsk
    rw [hsk, tokensAux_run (c :: cs) [], List.nil_append, hw, hr]
    have hne : w ≠ [] := by
      rw [← hw]
      simp [List.takeWhile, hc]
    simp [hne]

theorem readWord_length (s w r : List Char) (h : readWord s = some (w, r)) :
    r.length < s.length := by
  unfold readWord at h
  split at h
  · exact absurd h (by simp)
  · rename_i c cs hsk
    have hc : isspace c = false := dropWhile_head_false isspace s c cs hsk
    simp only [Option.some.injEq, Prod.mk.injEq] at h
    obtain ⟨_, hr⟩ := h
    have h1 : (c :: cs).dropWhile (fun x => !isspace x)
        = cs.dropWhile (fun x => !isspace x) := by simp [List.dropWhile, hc]
    have h2 : (cs.dropWhile (fun x => !isspace x)).length ≤ cs.length :=
      (List.dropWhile_sublist _).length_le
    have h3 : (s.dropWhile isspace).length ≤ s.length := (List.dropWhile_sublist _).length_le
    unfold skipws at hsk
    rw [hsk] at h3
    rw [← hr, h1]
    simp only [List.length_cons] at h3
    omega

theorem readWord_rest_tokens (s u r : List Char) (h : readWord s = some (u, r)) :
    ∀ t ∈ tokens r, t ∈ tokens (s.dropWhile (fun x => !isspace x)) := by
  intro t ht
  cases s with
  | nil => simp [readWord, skipws] at h
  | cons c cs =>
    by_cases hc : isspace c = true
    · have h2 : (c :: cs).dropWhile (fun x => !isspace x) = c :: cs := by
        simp [List.dropWhile, hc]
      rw [h2, readWord_tokens _ _ _ h]
      exact List.mem_cons_of_mem _ ht
    · have hsk : skipws (c :: cs) = c :: cs := by
        simp [skipws, List.dropWhile, hc]
      unfold readWord at h
      rw [hsk] at h
      simp only [Option.some.injEq, Prod.mk.injEq] at h
      rw [h.2]
      exact ht

theorem takeWhile_all (p : Char → Bool) (l : List Char) : ∀ c ∈ l.takeWhile p, p c = true :=
  fun _ hc => List.mem_takeWhile_imp hc

theorem readULong_shape (s : List Char) (v : Nat) (r : List Char)
    (h : readULong s = some (v, r)) :
    ∃ pre, skipws s = pre ++ r ∧ pre ≠ [] ∧ ∀ c ∈ pre, (!isspace c) = true := by
  unfold readULong at h
  simp only at h
  have h1 : (splitSign (skipws s)).2.takeWhile isdigit ≠ [] := by
    intro h0
    rw [if_pos h0] at h
    exact absurd h (by simp)
  rw [if_neg h1] at h
  have hr : (splitSign (skipws s)).2.dropWhile isdigit = r := by
    split_ifs at h <;> exact (Prod.mk.inj (Option.some.inj h)).2
  obtain ⟨sg, hsg, hcase⟩ := splitSign_shape (skipws s)
  refine ⟨sg ++ (splitSign (skipws s)).2.takeWhile isdigit, ?_, ?_, ?_⟩
  · rw [← hr, List.append_assoc, List.takeWhile_append_dropWhile]
    exact hsg
  · intro hnil
    exact h1 (List.append_eq_nil.1 hnil).2
  · intro c hc
    rcases List.mem_append.1 hc with hc | hc
    · rcases hcase with ⟨h0, _⟩ | ⟨h0, _⟩ | ⟨h0, _⟩
      · rw [h0] at hc; simp at hc
      · rw [h0] at hc
        have : c = '-' := by simpa using hc
        subst this; decide
      · rw [h0] at hc
        have : c = '+' := by simpa using hc
        subst this; decide
    · have := isdigit_not_space c (List.mem_takeWhile_imp hc)
      simp [this]

theorem readULong_length (s : List Char) (v : Nat) (r : List Char)
    (h : readULong s = some (v, r)) : r.length ≤ s.length := by
  obtain ⟨pre, hsk, _, _⟩ := readULong_shape s v r h
  have h3 : (s.dropWhile isspace).length ≤ s.length := (List.dropWhile_sublist _).length_le
  unfold skipws at hsk
  rw [hsk, List.length_append] at h3
  omega

theorem readULong_rest_tokens (s : List Char) (v : Nat) (s2 u s3 : List Char)
    (h : readULong s = some (v, s2)) (hw : readWord s2 = some (u, s3)) :
    ∀ t ∈ tokens s3, t ∈ tokens s := by
  intro t ht
  obtain ⟨pre, hsk, hne, hpre⟩ := readULong_shape s v s2 h
  have h1 : tokens s = tokens (pre ++ s2) := by
    unfold tokens
    rw [tokensAux_skip s]
    unfold skipws at hsk
    rw [hsk]
  have h2 : tokens (pre ++ s2)
      = (pre ++ s2).takeWhile (fun x => !isspace x)
          :: tokens (s2.dropWhile (fun x => !isspace x)) := by
    unfold tokens
    rw [tokensAux_run (pre ++ s2) [], dropWhile_append_all _ pre s2 hpre, List.nil_append]
    have hne2 : (pre ++ s2).takeWhile (fun x => !isspace x) ≠ [] := by
      cases pre with
      | nil => exact absurd rfl hne
      | cons a tl =>
        have ha := hpre a (List.mem_cons_self _ _)
        simp only [Bool.not_eq_eq_eq_not, Bool.not_true] at ha
        simp [List.takeWhile, ha]
    simp [hne2]
  rw [h1, h2]
  exact List.mem_cons_of_mem _ (readWord_rest_tokens s2 u s3 hw t ht)

theorem scan_meminfo_absent (wanted : List Char) (dflt : Nat) :
    ∀ (fuel : Nat) (s : List Char), wanted ∉ tokens s → s.length < fuel →
      scan_meminfo wanted dflt fuel s = some dflt := by
  intro fuel
  induction fuel with
  | zero => intro s _ hlen; exact absurd hlen (Nat.not_lt_zero _)
  | succ n ih =>
    intro s habs hlen
    unfold scan_meminfo
    cases h1 : readWord s with
    | none => rfl
    | some p1 =>
      obtain ⟨key, s1⟩ := p1
      have hk := readWord_tokens s key s1 h1
      have hl1 := readWord_length s key s1 h1
      rw [hk] at habs
      have hkey : key ≠ wanted := fun e => habs (e ▸ List.mem_cons_self _ _)
      have habs1 : wanted ∉ tokens s1 := fun hm => habs (List.mem_cons_of_mem _ hm)
      simp only
      cases h2 : readULong s1 with
      | none => rfl
      | some p2 =>
        obtain ⟨val, s2⟩ := p2
        have hl2 := readULong_length s1 val s2 h2
        simp only
        cases h3 : readWord s2 with
        | none => rfl
        | some p3 =>
          obtain ⟨u, s3⟩ := p3
          have hl3 := readWord_length s2 u s3 h3
          simp only [hkey, if_false]
          apply ih
          · intro hm
            exact habs1 (readULong_rest_tokens s1 val s2 u s3 h2 h3 wanted hm)
          · omega

/-- The scan always ends within its iteration budget. -/
theorem scan_meminfo_total (wanted : List Char) (dflt : Nat) :
    ∀ (fuel : Nat) (s : List Char), s.length < fuel →
      ∃ v, scan_meminfo wanted dflt fuel s = some v := by
  intro fuel
  induction fuel with
  | zero => intro s hlen; exact absurd hlen (Nat.not_lt_zero _)
  | succ n ih =>
    intro s hlen
    unfold scan_meminfo
    cases h1 : readWord s with
    | none => exact ⟨dflt, rfl⟩
    | some p1 =>
      obtain ⟨key, s1⟩ := p1
      have hl1 := readWord_length s key s1 h1
      simp only
      cases h2 : readULong s1 with
      | none => exact ⟨dflt, rfl⟩
      | some p2 =>
        obtain ⟨val, s2⟩ := p2
        have hl2 := readULong_length s1 val s2 h2
        simp only
        cases h3 : readWord s2 with
        | none => exact ⟨dflt, rfl⟩
        | some p3 =>
          obtain ⟨u, s3⟩ := p3
          have hl3 := readWord_length s2 u s3 h3
          simp only
          split_ifs
          · exact ⟨val, rfl⟩
          · exact ih s3 (by omega)

/-- Both memory readers return a value on every text. -/
theorem memory_readers_total (meminfo : List Char) :
    (∃ v, get_mem_total_kb meminfo = some v) ∧ (∃ v, read_mem_available meminfo = some v) :=
  ⟨scan_meminfo_total _ _ _ meminfo (Nat.lt_succ_self _),
    scan_meminfo_total _ _ _ meminfo (Nat.lt_succ_self _)⟩

/-- C8 (as stated, refuted): on a text without the key `MemAvailable:` the
scan for the available memory yields `0`. -/
theorem mem_available_absent_counterexample :
    "MemAvailable:".toList ∉ tokens meminfo_without_available ∧
    read_mem_available meminfo_without_available = some 0 := by
  constructor <;> decide

/-- C8 (amended): on every memory-information text in which no
whitespace-separated word is `MemTotal:`, `get_mem_total_kb` returns the
non-zero sentinel `1`; on every text in which no word is `MemAvailable:`, the
scan for the available memory yields `0`. -/
theorem memory_readers_absent_key (meminfo : List Char) :
    ("MemTotal:".toList ∉ tokens meminfo →
      get_mem_total_kb meminfo = some 1 ∧ get_mem_total_kb meminfo ≠ some 0) ∧
    ("MemAvailable:".toList ∉ tokens meminfo → read_mem_available meminfo = some 0) := by
  constructor
  · intro h
    have h1 : get_mem_total_kb meminfo = some 1 :=
      scan_meminfo_absent _ 1 _ meminfo h (Nat.lt_succ_self _)
    exact ⟨h1, by rw [h1]; decide⟩
  · intro h
    exact scan_meminfo_absent _ 0 _ meminfo h (Nat.lt_succ_self _)

theorem memory_readers_absent_key_witness :
    "MemTotal:".toList ∉ tokens "MemFree: 5 kB\n".toList ∧
    "MemAvailable:".toList ∉ tokens "MemFree: 5 kB\n".toList ∧
    get_mem_total_kb "MemFree: 5 kB\n".toList = some 1 ∧
    read_mem_available "MemFree: 5 kB\n".toList = some 0 :=
  ⟨by decide, by decide,
    ((memory_readers_absent_key "MemFree: 5 kB\n".toList).1 (by decide)).1,
    (memory_readers_absent_key "MemFree: 5 kB\n".toList).2 (by decide)⟩

/-! ## The claims on the command interpreter -/

theorem confirm_kill (p pid : Int) (r : List Char) (h : confirm p r = .kill pid) :
    affirmative r = true ∧ p = pid := by
  unfold confirm at h
  split_ifs at h with ha
  exact ⟨ha, by injection h⟩

theorem affirmative_head (r : List Char) (h : affirmative r = true) :
    ∃ c t, r = c :: t ∧ (c = 'y' ∨ c = 'Y') := by
  cases r with
  | nil => simp [affirmative] at h
  | cons c t =>
    refine ⟨c, t, rfl, ?_⟩
    simpa [affirmative] using h

theorem clampInt_nonpos (x : Int) (h : x ≤ 0) : clampInt x ≤ 0 := by
  unfold clampInt
  split_ifs <;> omega

theorem readInt_none (rest : List Char) (h : readInt rest = none) :
    ∀ c ∈ rest, isspace c = true := by
  unfold readInt at h
  split at h
  · rename_i hsk
    unfold skipws at hsk
    exact List.dropWhile_eq_nil_iff.1 hsk
  · simp only at h
    split_ifs at h

theorem readInt_pos (rest : List Char) (p : Int) (h : readInt rest = some p) (hp : 0 < p) :
    ∃ ws sg ds tl, rest = ws ++ sg ++ ds ++ tl ∧ (∀ c ∈ ws, isspace c = true) ∧
      (sg = [] ∨ sg = ['+']) ∧ ds ≠ [] ∧ (∀ c ∈ ds, isdigit c = true) ∧
      (∀ c, tl.head? = some c → isdigit c = false) ∧
      p = clampInt (natOfDigits ds) := by
  unfold readInt at h
  split at h
  · exact absurd h (by simp)
  · rename_i c cs hsk
    simp only at h
    have hds : (splitSign (c :: cs)).2.takeWhile isdigit ≠ [] := by
      intro h0
      rw [if_pos h0] at h
      have : (0 : Int) = p := Option.some.inj h
      omega
    rw [if_neg hds] at h
    have hval : clampInt (signedVal (splitSign (c :: cs)).1
        (natOfDigits ((splitSign (c :: cs)).2.takeWhile isdigit))) = p := Option.some.inj h
    obtain ⟨sg, hsg, hcase⟩ := splitSign_shape (c :: cs)
    have hrest : rest = rest.takeWhile isspace ++ (c :: cs) := by
      unfold skipws at hsk
      rw [← hsk, List.takeWhile_append_dropWhile]
    have hneg : (splitSign (c :: cs)).1 = false ∧ (sg = [] ∨ sg = ['+']) := by
      rcases hcase with ⟨h0, h1⟩ | ⟨_, h1⟩ | ⟨h0, h1⟩
      · exact ⟨h1, Or.inl h0⟩
      · exfalso
        rw [h1] at hval
        have hle : clampInt (signedVal true
            (natOfDigits ((splitSign (c :: cs)).2.takeWhile isdigit))) ≤ 0 := by
          apply clampInt_nonpos
          simp only [signedVal, if_true]
          omega
        omega
      · exact ⟨h1, Or.inr h0⟩
    refine ⟨rest.takeWhile isspace, sg, (splitSign (c :: cs)).2.takeWhile isdigit,
      (splitSign (c :: cs)).2.dropWhile isdigit, ?_, ?_, hneg.2, hds, ?_, ?_, ?_⟩
    · rw [List.append_assoc, List.append_assoc, List.takeWhile_append_dropWhile, ← hsg]
      exact hrest
    · intro x hx
      exact List.mem_takeWhile_imp hx
    · intro x hx
      exact List.mem_takeWhile_imp hx
    · intro x hx
      cases hdw : (splitSign (c :: cs)).2.dropWhile isdigit with
      | nil => rw [hdw] at hx; simp at hx
      | cons a tl =>
        rw [hdw] at hx
        have hxa : a = x := by simpa using hx
        rw [← hxa]
        exact dropWhile_head_false _ _ a tl hdw
    · rw [← hval, hneg.1]
      simp [signedVal]

theorem stoi_digits (cmd : List Char) (p : Int) (hne : cmd ≠ [])
    (hd : ∀ c ∈ cmd, isdigit c = true) (h : stoi cmd = .ok p) : p = (natOfDigits cmd : Nat) := by
  have hnum : NumberAt cmd false (natOfDigits cmd) :=
    ⟨[], [], cmd, [], by simp, by simp, Or.inl ⟨rfl, rfl⟩, hne, hd, by simp, rfl⟩
  unfold stoi at h
  rw [strtoNum_of_numberAt cmd false _ hnum] at h
  simp only [signedVal, Bool.false_eq_true, if_false] at h
  split_ifs at h
  injection h with h
  exact h.symm

/-- Every call of `kill` follows an affirmative response; the command line is
`k <pid>`, a bare `<pid>`, or the letter `k` with nothing but whitespace after
it, in which case the pid is the stale value of the uninitialised variable. -/
theorem kill_outcome_forms (stale : Int) (cmd r : List Char) (pid : Int)
    (h : command stale cmd r = .kill pid) :
    (∃ c t, r = c :: t ∧ (c = 'y' ∨ c = 'Y')) ∧ cmd ≠ ['s'] ∧ cmd ≠ ['q'] ∧
      (KillKForm cmd pid ∨ KillBareForm cmd pid ∨ (KillNoPid cmd ∧ pid = stale)) := by
  have hs : cmd ≠ ['s'] := by
    intro h0
    rw [h0] at h
    simp [command] at h
  have hq : cmd ≠ ['q'] := by
    intro h0
    rw [h0] at h
    simp [command] at h
  unfold command at h
  rw [if_neg hs, if_neg hq] at h
  split at h
  · rename_i rest
    by_cases hpos : extract_pid stale rest > 0
    · rw [if_pos hpos] at h
      obtain ⟨ha, hp⟩ := confirm_kill _ pid r h
      refine ⟨affirmative_head r ha, hs, hq, ?_⟩
      cases hread : readInt rest with
      | none =>
        right; right
        have hst : extract_pid stale rest = stale := by simp [extract_pid, hread]
        exact ⟨⟨rest, rfl, readInt_none rest hread⟩, by rw [← hp, hst]⟩
      | some v =>
        left
        have hv : extract_pid stale rest = v := by simp [extract_pid, hread]
        rw [hv] at hpos hp
        subst hp
        obtain ⟨ws, sg, ds, tl, h1, h2, h3, h4, h5, h6, h7⟩ := readInt_pos rest v hread hpos
        exact ⟨ws, sg, ds, tl, by rw [h1], h2, h3, h4, h5, h6, h7⟩
    · rw [if_neg hpos] at h
      exact absurd h (by simp)
  · by_cases hcond : cmd ≠ [] ∧ cmd.all isdigit = true
    · rw [if_pos hcond] at h
      split at h
      · exact absurd h (by simp)
      · rename_i p hstoi
        obtain ⟨ha, hp⟩ := confirm_kill p pid r h
        subst hp
        have hd : ∀ c ∈ cmd, isdigit c = true := by
          simpa [List.all_eq_true] using hcond.2
        exact ⟨affirmative_head r ha, hs, hq,
          Or.inr (Or.inl ⟨hcond.1, hd, stoi_digits cmd p hcond.1 hd hstoi⟩)⟩
    · rw [if_neg hcond] at h
      exact absurd h (by simp)

/-- C9 (code at the failing input): on the command line `k`, also when blanks
follow it, the variable `pid` is never assigned; with the stale value 5 in it
the prompt is shown for pid 5 and the response `y` sends the signal to pid 5,
although the line is neither `k <pid>` nor a bare `<pid>`. -/
theorem k_without_pid_signals_stale_pid :
    command 5 "k".toList "y".toList = .kill 5 ∧
    command 5 "k  ".toList "y".toList = .kill 5 ∧
    (∀ pid, ¬ KillKForm "k".toList pid) ∧ (∀ pid, ¬ KillBareForm "k".toList pid) := by
  refine ⟨by decide, by decide, ?_, ?_⟩
  · rintro pid ⟨ws, sg, ds, tl, hcmd, _, _, hne, _⟩
    have hnil : ws ++ sg ++ ds ++ tl = [] := by
      have := (List.cons.inj hcmd).2
      exact this.symm
    simp only [List.append_eq_nil] at hnil
    exact hne hnil.1.2
  · rintro pid ⟨_, hd, _⟩
    have := hd 'k' (by decide)
    revert this
    decide

/-- C10 (code at the failing input): on the bare line `0` the prompt is shown
for pid `0` and an affirmative response sends the signal to pid `0`, which
is not a positive pid; the form `k 0` is ignored. -/
theorem bare_zero_is_signalled :
    ∀ stale : Int,
      command stale "0".toList "n".toList = .declined 0 ∧
      command stale "0".toList "y".toList = .kill 0 ∧
      command stale "k 0".toList "y".toList = .ignored := by
  intro stale
  refine ⟨?_, ?_, ?_⟩ <;> rfl

end SysMon
